import Mathlib

/-!
Verification of the leadgen-scraper repository (src/main.py) against its
natural-language specification.

The HTML document is modelled as a tree of nodes (`Node`): element nodes carry
a tag name and children, text nodes carry a raw string.  The functions below
are direct translations of the Python functions of `src/main.py`:

* `clean_text`            ↦ `_clean_text`   (re.sub whitespace collapse + strip)
* `getText`               ↦ `Tag.get_text(" ", strip=True)` of BeautifulSoup
* `extract_section_text`  ↦ `_extract_section_text`
* `split_by_h3`           ↦ `_split_by_h3` (Python dict modelled as an
   insertion-ordered association list with `setdefault`/append semantics)
* `serviceMatch`          ↦ `_SERVICE_RE.match` (a matcher specialised to the
   fixed pattern `^(?P<name>.+?)\s+Review\s+for\s+Lawyers\s*$`, IGNORECASE,
   with the lazy `.+?` group resolved by trying the shortest name first)
* `parse_services`        ↦ `parse_services` (BeautifulSoup `find_all("h2")`
   is a pre-order traversal; each found h2's section is collected from its
   following siblings, stopping at the next h2)
* `fetch_html`            ↦ `fetch_html` (the transport is abstracted as a
   function from the attempt number to a result; the trace records the sleep
   durations and the number of attempts actually performed)
-/

namespace Scraper

/-- Whitespace trim on both ends of a char list: Python `str.strip()`. -/
def trimWS (cs : List Char) : List Char :=
  ((cs.dropWhile Char.isWhitespace).reverse.dropWhile Char.isWhitespace).reverse

/-- Python `s.strip()`. -/
def stripStr (s : String) : String := ⟨trimWS s.data⟩

/-- `re.sub(r"\s+", " ", ·)`, scanning with a flag that records whether the
scanner is inside a whitespace run: the first char of each maximal
whitespace run becomes one space, the rest of the run is dropped. -/
def collapseGo : Bool → List Char → List Char
  | _, [] => []
  | inRun, c :: cs =>
    if c.isWhitespace then
      (if inRun then [] else [' ']) ++ collapseGo true cs
    else c :: collapseGo false cs

/-- `re.sub(r"\s+", " ", ·)`: replace each maximal whitespace run by one space. -/
def collapseWS (cs : List Char) : List Char := collapseGo false cs

/-- `_clean_text` of src/main.py: `re.sub(r"\s+", " ", text).strip()`. -/
def clean_text (s : String) : String := ⟨trimWS (collapseWS s.data)⟩

/-- A node of the parsed HTML tree: either a bare text node
(`NavigableString`) or an element (`Tag`) with a tag name and children. -/
inductive Node : Type where
  | txt (s : String)
  | elem (tag : String) (children : List Node)

/-- `Tag.name`: the tag name of an element node (text nodes have none). -/
def Node.name : Node → String
  | .txt _ => ""
  | .elem tag _ => tag

/-- `isinstance(·, Tag)`. -/
def Node.isTag : Node → Bool
  | .txt _ => false
  | .elem _ _ => true

def Node.isTxt : Node → Bool
  | .txt _ => true
  | .elem _ _ => false

/-- Python `sep.join(strings)`. -/
def strJoin (sep : String) : List String → String
  | [] => ""
  | [x] => x
  | x :: y :: xs => x ++ sep ++ strJoin sep (y :: xs)

mutual

/-- The stripped nonempty text fragments of a node's subtree, in order:
what BeautifulSoup's `get_text(separator, strip=True)` joins. -/
def getTextFrags : Node → List String
  | .txt s => if stripStr s = "" then [] else [stripStr s]
  | .elem _ cs => getTextFragsList cs

/-- `getTextFrags` over a list of children. -/
def getTextFragsList : List Node → List String
  | [] => []
  | n :: ns => getTextFrags n ++ getTextFragsList ns

end

/-- `Tag.get_text(" ", strip=True)`. -/
def getText (n : Node) : String := strJoin " " (getTextFrags n)

/-- `pat` is a prefix of the char list. -/
def isPrefixChars : List Char → List Char → Bool
  | [], _ => true
  | _ :: _, [] => false
  | p :: ps, c :: cs => p = c && isPrefixChars ps cs

/-- `pat` occurs as a contiguous run somewhere in the char list. -/
def hasSubstrChars (pat : List Char) : List Char → Bool
  | [] => isPrefixChars pat []
  | c :: cs => isPrefixChars pat (c :: cs) || hasSubstrChars pat cs

/-- Python substring test `pat in s`. -/
def hasSubstr (s pat : String) : Bool := hasSubstrChars pat.data s.data

/-- Python `str.lower()` (ASCII lowering, as in the titles involved). -/
def strToLower (s : String) : String := ⟨s.data.map Char.toLower⟩

/-- The bucket key chosen by the `h3` branch of `_split_by_h3` from the
lower-cased cleaned sub-heading title (lines 85-92 of src/main.py). -/
def classifyH3 (title : String) : String :=
  if hasSubstr title "how" && hasSubstr title "work" then "how_it_works"
  else if hasSubstr title "practice" && hasSubstr title "area" then "practice_areas"
  else if hasSubstr title "pricing" || hasSubstr title "price" then "pricing"
  else "section:" ++ title

/-- The sections dictionary of `_split_by_h3`: a Python `dict[str, List[Tag]]`
modelled as an insertion-ordered association list. -/
abbrev Sections := List (String × List Node)

/-- `d.setdefault(k, [])`. -/
def Sections.setdefault (d : Sections) (k : String) : Sections :=
  if d.any (fun e => e.1 == k) then d else d ++ [(k, [])]

/-- `d.setdefault(k, []).append(n)`. -/
def Sections.appendTo (d : Sections) (k : String) (n : Node) : Sections :=
  (d.setdefault k).map (fun e => if e.1 == k then (e.1, e.2 ++ [n]) else e)

/-- `d.get(k, [])`. -/
def Sections.getD (d : Sections) (k : String) : List Node :=
  ((d.find? (fun e => e.1 == k)).map Prod.snd).getD []

/-- The loop body of `_split_by_h3` (lines 82-99 of src/main.py). -/
def splitGo : List Node → String → Sections → Sections
  | [], _, sections => sections
  | node :: rest, currentKey, sections =>
    if node.name = "h3" then
      let key := classifyH3 (strToLower (clean_text (getText node)))
      splitGo rest key (sections.setdefault key)
    else if node.name = "h2" then sections
    else splitGo rest currentKey (sections.appendTo currentKey node)

/-- `_split_by_h3` of src/main.py. -/
def split_by_h3 (nodes : List Node) : Sections :=
  splitGo nodes "summary" [("summary", [])]

/-- The loop body of `_extract_section_text`: a node contributes a line
exactly when its own tag is `p` or `li` and its cleaned text is nonempty. -/
def lineOf (node : Node) : Option String :=
  if node.name = "p" ∨ node.name = "li" then
    let t := clean_text (getText node)
    if t = "" then none else some t
  else none

/-- `_extract_section_text` of src/main.py. -/
def extract_section_text (nodes : List Node) : String :=
  stripStr (strJoin "\n" (nodes.filterMap lineOf))

/-- `\s+` at the head of the input: one mandatory whitespace char, then any
further whitespace (the pattern's literal words make longer matches
impossible, so the greedy run is exact). -/
def dropWS1 : List Char → Option (List Char)
  | c :: rest => if c.isWhitespace then some (rest.dropWhile Char.isWhitespace) else none
  | [] => none

/-- Case-insensitive literal word match, returning the rest of the input. -/
def matchCI : List Char → List Char → Option (List Char)
  | [], cs => some cs
  | _ :: _, [] => none
  | w :: ws, c :: cs => if c.toLower = w.toLower then matchCI ws cs else none

/-- `\s+Review\s+for\s+Lawyers\s*$` (IGNORECASE) tested at the given
position.  `\s*$` accepts exactly an all-whitespace remainder (Python's `$`
also matches just before a final newline, which an all-whitespace check
already covers). -/
def reviewSuffix (cs : List Char) : Bool :=
  match dropWS1 cs with
  | none => false
  | some cs1 =>
    match matchCI "review".data cs1 with
    | none => false
    | some cs2 =>
      match dropWS1 cs2 with
      | none => false
      | some cs3 =>
        match matchCI "for".data cs3 with
        | none => false
        | some cs4 =>
          match dropWS1 cs4 with
          | none => false
          | some cs5 =>
            match matchCI "lawyers".data cs5 with
            | none => false
            | some cs6 => (cs6.dropWhile Char.isWhitespace).isEmpty

/-- The lazy group `(?P<name>.+?)`: try the shortest nonempty name first;
`.` does not match a newline, so a newline ends the search. -/
def serviceNameGo : List Char → List Char → Option (List Char)
  | acc, [] =>
    if acc ≠ [] ∧ reviewSuffix [] = true then some acc.reverse else none
  | acc, c :: rest' =>
    if acc ≠ [] ∧ reviewSuffix (c :: rest') = true then some acc.reverse
    else if c = '\n' then none
    else serviceNameGo (c :: acc) rest'

/-- `_SERVICE_RE.match(s)`, returning the captured `name` group. -/
def serviceMatch (s : String) : Option String :=
  (serviceNameGo [] s.data).map (fun cs => (⟨cs⟩ : String))

/-- The `ServiceReview` dataclass of src/main.py. -/
structure ServiceReview where
  service_name : String
  heading : String
  url : String
  summary : String
  how_it_works : String
  practice_areas : String
  pricing : String
deriving DecidableEq, Repr

/-- Collection of a section's nodes (lines 117-122 of src/main.py): the
following siblings of a matched h2, stopping before the next h2; only `Tag`
nodes are kept. -/
def collectSection : List Node → List Node
  | [] => []
  | sib :: rest =>
    if sib.isTag = true ∧ sib.name = "h2" then []
    else if sib.isTag = true then sib :: collectSection rest
    else collectSection rest

/-- The per-heading body of the `parse_services` loop
(lines 110-141 of src/main.py). -/
def processH2 (url : String) (h2 : Node) (siblings : List Node) : List ServiceReview :=
  let heading_text := clean_text (getText h2)
  match serviceMatch heading_text with
  | none => []
  | some nm =>
    let sections := split_by_h3 (collectSection siblings)
    [{ service_name := stripStr nm
       heading := heading_text
       url := url
       summary := extract_section_text (sections.getD "summary")
       how_it_works := extract_section_text (sections.getD "how_it_works")
       practice_areas := extract_section_text (sections.getD "practice_areas")
       pricing := extract_section_text (sections.getD "pricing") }]

mutual

/-- `soup.find_all("h2")` enumerates h2 elements in pre-order and
`find_next_siblings` yields the siblings inside the h2's own parent: this
processes one node given its following siblings, emitting the node's own
record (when it is a matching h2) and then the records of its subtree. -/
def parseNodeAux (url : String) : Node → List Node → List ServiceReview
  | .txt _, _ => []
  | .elem tag cs, rest =>
    (if tag = "h2" then processH2 url (.elem tag cs) rest else [])
      ++ parseListAux url cs

/-- Pre-order record emission over a sibling list. -/
def parseListAux (url : String) : List Node → List ServiceReview
  | [] => []
  | n :: rest => parseNodeAux url n rest ++ parseListAux url rest

end

/-- `parse_services` of src/main.py, on an already-parsed document (the list
of top-level nodes of the soup). -/
def parse_services (url : String) (doc : List Node) : List ServiceReview :=
  parseListAux url doc

/-- Convenience constructors for concrete test documents. -/
def pN (s : String) : Node := .elem "p" [.txt s]

def h2N (s : String) : Node := .elem "h2" [.txt s]

def h3N (s : String) : Node := .elem "h3" [.txt s]

def liN (s : String) : Node := .elem "li" [.txt s]

def ulN (ns : List Node) : Node := .elem "ul" ns

/-- A node whose children are all bare text nodes (so its subtree holds no
further elements that a pre-order `find_all` could visit). -/
def flatB : Node → Bool
  | .txt _ => true
  | .elem _ cs => cs.all Node.isTxt

mutual

/-- The cleaned texts of all h2 elements in a node's subtree (itself
included), in the pre-order that `find_all("h2")` uses. -/
def h2HeadingsNode : Node → List String
  | .txt _ => []
  | .elem tag cs =>
    (if tag = "h2" then [clean_text (getText (Node.elem tag cs))] else [])
      ++ h2HeadingsList cs

/-- `h2HeadingsNode` over a sibling list. -/
def h2HeadingsList : List Node → List String
  | [] => []
  | n :: ns => h2HeadingsNode n ++ h2HeadingsList ns

end

/-- The cleaned texts of all h2 elements of the document in document
(pre-)order. -/
def h2Headings (doc : List Node) : List String := h2HeadingsList doc

/-- The message of the `FetchError` raised at line 47 of src/main.py. -/
def fetchMsg (url : String) (retries : ℕ) : String :=
  "Failed to fetch " ++ url ++ " after " ++ toString retries ++ " attempts"

/-- `FetchError` of src/main.py: its message and its `from last_exc` cause
(`none` when no attempt ran at all). -/
structure FetchError (E : Type) where
  msg : String
  cause : Option E

/-- The observable outcome of one `fetch_html` call: the returned body or
the raised `FetchError`, the `time.sleep` durations in call order (in
seconds, as exact rationals), and the number of `requests.get` calls
performed. -/
structure FetchTrace (E : Type) where
  result : Except (FetchError E) String
  sleeps : List ℚ
  calls : ℕ

/-- The retry loop of `fetch_html` (lines 36-45 of src/main.py):
`remaining` counts the attempts still permitted, `attempt` is the 1-based
number of the next attempt, and the transport abstracts
`requests.get` + `raise_for_status` as a function from the attempt number
to that attempt's outcome. -/
def fetchLoop {E : Type} (url : String) (retries : ℕ) (backoff : ℚ)
    (transport : ℕ → Except E String) :
    ℕ → ℕ → Option E → List ℚ → ℕ → FetchTrace E
  | 0, _, lastExc, sleeps, calls =>
    ⟨Except.error ⟨fetchMsg url retries, lastExc⟩, sleeps, calls⟩
  | remaining + 1, attempt, _, sleeps, calls =>
    match transport attempt with
    | Except.ok body => ⟨Except.ok body, sleeps, calls + 1⟩
    | Except.error e =>
      fetchLoop url retries backoff transport remaining (attempt + 1) (some e)
        (sleeps ++ if attempt < retries then [backoff * (attempt : ℚ)] else [])
        (calls + 1)

/-- `fetch_html` of src/main.py (lines 24-47); `retries` and `backoff` are
the `retries` / `backoff_seconds` parameters (defaults 3 and 1.0). -/
def fetch_html {E : Type} (url : String) (retries : ℕ) (backoff : ℚ)
    (transport : ℕ → Except E String) : FetchTrace E :=
  fetchLoop url retries backoff transport retries 1 none [] 0

/-- Transport that fails on every attempt (for the witnesses). -/
def failTransport : ℕ → Except String String := fun _ => Except.error "boom"

/-- Transport that fails on attempt 1 and succeeds on attempt 2. -/
def mixedTransport : ℕ → Except String String :=
  fun k => if k = 2 then Except.ok "page" else Except.error "boom"

/-- Drop trailing whitespace (the back half of a strip). -/
def trimBack (cs : List Char) : List Char :=
  (cs.reverse.dropWhile Char.isWhitespace).reverse

/-- Spec-side definition, from the spec's wording: the maximal nonempty
runs of non-whitespace characters ("words"), in order. -/
def specWords : List Char → List (List Char)
  | [] => []
  | c :: cs =>
    if c.isWhitespace then specWords cs
    else (c :: cs.takeWhile (fun d => !d.isWhitespace)) ::
      specWords (cs.dropWhile (fun d => !d.isWhitespace))
termination_by cs => cs.length
decreasing_by
  · exact Nat.lt_succ_self _
  · refine Nat.lt_succ_of_le ?_
    induction cs with
    | nil => simp
    | cons x xs ih =>
      rw [List.dropWhile_cons]
      split
      · exact Nat.le_succ_of_le ih
      · simp

/-- Spec-side definition: join the words with single spaces. -/
def joinWords : List (List Char) → List Char
  | [] => []
  | [w] => w
  | w :: v :: ws => w ++ ' ' :: joinWords (v :: ws)

/-- Spec-side definition of normalization, from the spec's wording:
"collapse internal whitespace runs to single spaces and trim" — the
whitespace-separated words joined by single spaces. -/
def specNormalize (s : String) : String := ⟨joinWords (specWords s.data)⟩

theorem length_dropWhile_le' (p : Char → Bool) (l : List Char) :
    (l.dropWhile p).length ≤ l.length := by
  induction l with
  | nil => simp
  | cons c cs ih =>
    rw [List.dropWhile_cons]
    split
    · exact Nat.le_succ_of_le ih
    · simp

theorem isTag_eq_false_of_isTxt (n : Node) (h : n.isTxt = true) : n.isTag = false := by
  cases n <;> simp_all [Node.isTxt, Node.isTag]

/-! ### Lemmas about the sections dictionary -/

theorem getD_setdefault (d : Sections) (k' k : String) :
    (d.setdefault k').getD k = d.getD k := by
  unfold Sections.setdefault
  split
  · rfl
  · unfold Sections.getD
    rw [List.find?_append]
    cases hf : d.find? (fun e => e.1 == k) with
    | some e => simp
    | none =>
      by_cases hk : k' = k
      · subst hk
        simp [List.find?_cons]
      · have hb : (k' == k) = false := by simp [hk]
        simp [List.find?_cons, hb]

theorem setdefault_has_key (d : Sections) (k' : String) :
    ∃ e ∈ d.setdefault k', e.1 = k' := by
  unfold Sections.setdefault
  split
  · rename_i h
    obtain ⟨e, he, hk⟩ := List.any_eq_true.mp h
    exact ⟨e, he, by simpa using hk⟩
  · exact ⟨(k', []), by simp⟩

theorem find?_map_keeping_fst (f : String × List Node → String × List Node)
    (hf : ∀ e, (f e).1 = e.1) (k : String) :
    ∀ d : Sections,
      (d.map f).find? (fun e => e.1 == k) = (d.find? (fun e => e.1 == k)).map f := by
  intro d
  induction d with
  | nil => rfl
  | cons e rest ih =>
    simp only [List.map_cons, List.find?_cons]
    rw [hf e]
    cases he : (e.1 == k) <;> simp [he, ih]

theorem getD_appendTo (d : Sections) (k' : String) (n : Node) (k : String) :
    (d.appendTo k' n).getD k =
      if k = k' then d.getD k ++ [n] else d.getD k := by
  have hgetd := getD_setdefault d k' k
  unfold Sections.appendTo
  unfold Sections.getD at hgetd ⊢
  rw [find?_map_keeping_fst]
  case hf => intro e; split <;> rfl
  cases hf : (d.setdefault k').find? (fun e => e.1 == k) with
  | some e =>
    have hek : e.1 = k := by simpa using List.find?_some hf
    rw [hf] at hgetd
    simp only [Option.map_some', Option.getD_some] at hgetd ⊢
    by_cases hkk : k = k'
    · rw [if_pos hkk, ← hgetd, if_pos (by simp [hek, hkk])]
    · rw [if_neg hkk, if_neg (by simp [hek, hkk]), ← hgetd]
  | none =>
    have hknot : ∀ e ∈ d.setdefault k', ¬ (e.1 == k) = true := List.find?_eq_none.mp hf
    obtain ⟨e, he, hek⟩ := setdefault_has_key d k'
    have hne : ¬ k = k' := by
      intro hkk
      exact hknot e he (by simp [hek, hkk])
    rw [hf] at hgetd
    simp only [Option.map_none', Option.getD_none] at hgetd ⊢
    rw [if_neg hne, ← hgetd]

/-! ### Lemmas about the section scan `splitGo` -/

theorem splitGo_append (xs : List Node) :
    ∀ (ys : List Node) (key : String) (d : Sections),
      (∀ n ∈ xs, n.name ≠ "h3" ∧ n.name ≠ "h2") →
      splitGo (xs ++ ys) key d = splitGo ys key (splitGo xs key d) := by
  induction xs with
  | nil => intro ys key d _; rfl
  | cons node rest ih =>
    intro ys key d h
    obtain ⟨h3, h2⟩ := h node (by simp)
    simp only [List.cons_append, splitGo, if_neg h3, if_neg h2]
    exact ih ys key (d.appendTo key node) (fun n hn => h n (by simp [hn]))

theorem splitGo_h3 (node : Node) (rest : List Node) (key : String) (d : Sections)
    (hname : node.name = "h3") :
    splitGo (node :: rest) key d =
      splitGo rest (classifyH3 (strToLower (clean_text (getText node))))
        (d.setdefault (classifyH3 (strToLower (clean_text (getText node))))) := by
  simp [splitGo, hname]

theorem getD_splitGo_plain (l : List Node) :
    ∀ (key : String) (d : Sections) (k : String),
      (∀ n ∈ l, n.name ≠ "h3" ∧ n.name ≠ "h2") →
      (splitGo l key d).getD k =
        if k = key then d.getD k ++ l else d.getD k := by
  induction l with
  | nil => intro key d k _; split <;> simp [splitGo]
  | cons node rest ih =>
    intro key d k h
    obtain ⟨h3, h2⟩ := h node (by simp)
    simp only [splitGo, if_neg h3, if_neg h2]
    rw [ih key (d.appendTo key node) k (fun n hn => h n (by simp [hn]))]
    rw [getD_appendTo]
    split <;> simp

/-! ### Lemmas about the record-emitting traversal -/

theorem parseListAux_all_txt (url : String) (l : List Node)
    (h : ∀ n ∈ l, n.isTag = false) : parseListAux url l = [] := by
  induction l with
  | nil => rfl
  | cons n rest ih =>
    have hn := h n (by simp)
    match n with
    | .txt s =>
      simp only [parseListAux, parseNodeAux, List.nil_append]
      exact ih (fun m hm => h m (by simp [hm]))
    | .elem tag cs => simp [Node.isTag] at hn

theorem parseListAux_no_h2 (url : String) (l : List Node)
    (h : ∀ n ∈ l, flatB n = true ∧ n.name ≠ "h2") : parseListAux url l = [] := by
  induction l with
  | nil => rfl
  | cons n rest ih =>
    obtain ⟨hflat, hname⟩ := h n (by simp)
    have hrest : parseListAux url rest = [] := ih (fun m hm => h m (by simp [hm]))
    match n with
    | .txt s => simpa [parseListAux, parseNodeAux] using hrest
    | .elem tag cs =>
      have hcs : parseListAux url cs = [] := by
        apply parseListAux_all_txt
        intro m hm
        exact isTag_eq_false_of_isTxt m
          ((List.all_eq_true.mp (by simpa [flatB] using hflat)) m hm)
      simp only [parseListAux, parseNodeAux, Node.name] at hname ⊢
      simp [if_neg hname, hcs, hrest]

theorem collectSection_all_tags (l : List Node)
    (h : ∀ n ∈ l, n.isTag = true ∧ n.name ≠ "h2") : collectSection l = l := by
  induction l with
  | nil => rfl
  | cons n rest ih =>
    obtain ⟨htag, hname⟩ := h n (by simp)
    simp only [collectSection]
    rw [if_neg (by simp [hname]), if_pos htag]
    rw [ih (fun m hm => h m (by simp [hm]))]

/-! ### The document-order list of cleaned h2 heading texts -/


theorem parse_map_heading (url : String) (l : List Node) :
    (parseListAux url l).map (fun r => r.heading) =
      (h2HeadingsList l).filter (fun h => (serviceMatch h).isSome) := by
  have key : ∀ (N : ℕ) (l : List Node), sizeOf l ≤ N →
      (parseListAux url l).map (fun r => r.heading) =
        (h2HeadingsList l).filter (fun h => (serviceMatch h).isSome) := by
    intro N
    induction N with
    | zero =>
      intro l hl
      match l with
      | [] => rfl
      | n :: rest =>
        exfalso
        simp only [List.cons.sizeOf_spec] at hl
        omega
    | succ N ih =>
      intro l hl
      match l with
      | [] => rfl
      | .txt s :: rest =>
        simp only [parseListAux, parseNodeAux, h2HeadingsList, h2HeadingsNode,
          List.nil_append]
        apply ih rest
        simp only [List.cons.sizeOf_spec] at hl
        omega
      | .elem tag cs :: rest =>
        have hcs : sizeOf cs ≤ N := by
          simp only [List.cons.sizeOf_spec, Node.elem.sizeOf_spec] at hl
          omega
        have hrest : sizeOf rest ≤ N := by
          simp only [List.cons.sizeOf_spec, Node.elem.sizeOf_spec] at hl
          omega
        simp only [parseListAux, parseNodeAux, h2HeadingsList, h2HeadingsNode]
        rw [List.map_append, List.map_append, List.filter_append, List.filter_append]
        rw [ih cs hcs, ih rest hrest]
        congr 1
        congr 1
        by_cases htag : tag = "h2"
        · rw [if_pos htag, if_pos htag]
          cases hm : serviceMatch (clean_text (getText (Node.elem tag cs))) with
          | none => simp [processH2, hm]
          | some nm => simp [processH2, hm]
        · rw [if_neg htag, if_neg htag]
          rfl
  exact key (sizeOf l) l (Nat.le_refl _)

/-! ### Lemmas about `extract_section_text` -/

theorem extract_section_text_nil : extract_section_text [] = "" := rfl

theorem extract_no_pli (l : List Node)
    (h : ∀ n ∈ l, n.name ≠ "p" ∧ n.name ≠ "li") :
    extract_section_text l = "" := by
  unfold extract_section_text
  have hnil : l.filterMap lineOf = [] := by
    rw [List.filterMap_eq_nil_iff]
    intro n hn
    obtain ⟨hp, hli⟩ := h n hn
    simp [lineOf, hp, hli]
  rw [hnil]
  rfl

/-- One matched h2 followed by its whole (tag-only, flat, h2-free) section:
`parse_services` emits exactly the record that `processH2` builds from the
section's buckets. -/
theorem parse_single_section (url nm : String) (h2kids body : List Node)
    (hh2 : h2kids.all Node.isTxt = true)
    (hmatch : serviceMatch (clean_text (getText (Node.elem "h2" h2kids))) = some nm)
    (hbody : ∀ n ∈ body, flatB n = true ∧ n.isTag = true ∧ n.name ≠ "h2") :
    parse_services url (Node.elem "h2" h2kids :: body) =
      [{ service_name := stripStr nm
         heading := clean_text (getText (Node.elem "h2" h2kids))
         url := url
         summary := extract_section_text ((split_by_h3 body).getD "summary")
         how_it_works := extract_section_text ((split_by_h3 body).getD "how_it_works")
         practice_areas := extract_section_text ((split_by_h3 body).getD "practice_areas")
         pricing := extract_section_text ((split_by_h3 body).getD "pricing") }] := by
  have hbody2 : parseListAux url body = [] :=
    parseListAux_no_h2 url body (fun n hn => ⟨(hbody n hn).1, (hbody n hn).2.2⟩)
  have hkids : parseListAux url h2kids = [] :=
    parseListAux_all_txt url h2kids
      (fun n hn => isTag_eq_false_of_isTxt n (List.all_eq_true.mp hh2 n hn))
  have hcoll : collectSection body = body :=
    collectSection_all_tags body (fun n hn => ⟨(hbody n hn).2.1, (hbody n hn).2.2⟩)
  simp only [parse_services, parseListAux, parseNodeAux, if_pos rfl]
  rw [hbody2, hkids]
  simp [processH2, hmatch, hcoll]

theorem getD_init (k : String) :
    Sections.getD ([("summary", [])] : Sections) k = [] := by
  unfold Sections.getD
  cases h : List.find? (fun e => e.1 == k) ([("summary", [])] : Sections) with
  | none => simp
  | some e =>
    have he : e ∈ ([("summary", [])] : Sections) := List.mem_of_find?_eq_some h
    simp only [List.mem_singleton] at he
    simp [he]

/-! ### Claim theorems -/

/-- C1: round-trip scenario.  A document whose single major heading cleans to
"Acme Review for Lawyers", followed by the body
`<p>Good service</p><h3>How It Works</h3><p>Step one</p>`, parses to exactly
one record with `service_name = "Acme"`, `heading` the full normalized
heading, `url` the given source URL, `summary = "Good service"`,
`how_it_works = "Step one"`, and empty `practice_areas` and `pricing`. -/
theorem c1_round_trip (url : String) :
    parse_services url
        [h2N "Acme Review for Lawyers", pN "Good service",
         h3N "How It Works", pN "Step one"] =
      [{ service_name := "Acme", heading := "Acme Review for Lawyers",
         url := url, summary := "Good service", how_it_works := "Step one",
         practice_areas := "", pricing := "" }] := rfl

/-- C2: `parse_services` emits one record per major heading whose cleaned
text matches the service pattern, in document (pre-)order, and none for a
non-matching major heading: the headings of the output are exactly the
pattern-matching entries of the document's h2 heading list, in order.  In
particular a document with major headings "A Review for Lawyers",
"B Review for Lawyers", "Unrelated", "C Review for Lawyers" yields exactly
the records for A, B, C in that order. -/
theorem c2_document_order (url : String) (doc : List Node) :
    ((parse_services url doc).map (fun r => r.heading) =
      (h2Headings doc).filter (fun h => (serviceMatch h).isSome))
    ∧ parse_services "u"
        [h2N "A Review for Lawyers", h2N "B Review for Lawyers",
         h2N "Unrelated", h2N "C Review for Lawyers"] =
      [{ service_name := "A", heading := "A Review for Lawyers", url := "u",
         summary := "", how_it_works := "", practice_areas := "", pricing := "" },
       { service_name := "B", heading := "B Review for Lawyers", url := "u",
         summary := "", how_it_works := "", practice_areas := "", pricing := "" },
       { service_name := "C", heading := "C Review for Lawyers", url := "u",
         summary := "", how_it_works := "", practice_areas := "", pricing := "" }] :=
  ⟨parse_map_heading url doc, by decide⟩

/-- C3: field isolation.  In a matched section whose collected nodes are
`pre ++ [how-it-works h3] ++ mid ++ [pricing h3] ++ post` (with `pre`,
`mid`, `post` plain flat element nodes), the nodes between the two
sub-headings form exactly the `how_it_works` bucket, and the resulting
record's `how_it_works` field is their text while `summary` and `pricing`
are derived from `pre` and `post` alone. -/
theorem c3_field_isolation
    (url nm : String) (h2kids hwkids prkids pre mid post : List Node)
    (hh2 : h2kids.all Node.isTxt = true)
    (hmatch : serviceMatch (clean_text (getText (Node.elem "h2" h2kids))) = some nm)
    (hhwk : hwkids.all Node.isTxt = true)
    (hprk : prkids.all Node.isTxt = true)
    (hhwc : classifyH3 (strToLower (clean_text (getText (Node.elem "h3" hwkids)))) =
      "how_it_works")
    (hprc : classifyH3 (strToLower (clean_text (getText (Node.elem "h3" prkids)))) =
      "pricing")
    (hsec : ∀ n ∈ pre ++ mid ++ post,
      flatB n = true ∧ n.isTag = true ∧ n.name ≠ "h2" ∧ n.name ≠ "h3") :
    (split_by_h3 (pre ++ Node.elem "h3" hwkids ::
        (mid ++ Node.elem "h3" prkids :: post))).getD "how_it_works" = mid
    ∧ (split_by_h3 (pre ++ Node.elem "h3" hwkids ::
        (mid ++ Node.elem "h3" prkids :: post))).getD "summary" = pre
    ∧ (split_by_h3 (pre ++ Node.elem "h3" hwkids ::
        (mid ++ Node.elem "h3" prkids :: post))).getD "pricing" = post
    ∧ parse_services url (Node.elem "h2" h2kids ::
        (pre ++ Node.elem "h3" hwkids :: (mid ++ Node.elem "h3" prkids :: post))) =
      [{ service_name := stripStr nm
         heading := clean_text (getText (Node.elem "h2" h2kids))
         url := url
         summary := extract_section_text pre
         how_it_works := extract_section_text mid
         practice_areas := ""
         pricing := extract_section_text post }] := by
  have hpre : ∀ n ∈ pre, n.name ≠ "h3" ∧ n.name ≠ "h2" := fun n hn =>
    ⟨(hsec n (by simp [hn])).2.2.2, (hsec n (by simp [hn])).2.2.1⟩
  have hmid : ∀ n ∈ mid, n.name ≠ "h3" ∧ n.name ≠ "h2" := fun n hn =>
    ⟨(hsec n (by simp [hn])).2.2.2, (hsec n (by simp [hn])).2.2.1⟩
  have hpost : ∀ n ∈ post, n.name ≠ "h3" ∧ n.name ≠ "h2" := fun n hn =>
    ⟨(hsec n (by simp [hn])).2.2.2, (hsec n (by simp [hn])).2.2.1⟩
  have hsplit : split_by_h3 (pre ++ Node.elem "h3" hwkids ::
        (mid ++ Node.elem "h3" prkids :: post)) =
      splitGo post "pricing"
        ((splitGo mid "how_it_works"
          ((splitGo pre "summary" [("summary", [])]).setdefault
            "how_it_works")).setdefault "pricing") := by
    unfold split_by_h3
    rw [splitGo_append pre _ _ _ hpre]
    rw [splitGo_h3 _ _ _ _ (by rfl), hhwc]
    rw [splitGo_append mid _ _ _ hmid]
    rw [splitGo_h3 _ _ _ _ (by rfl), hprc]
  have hhow : (split_by_h3 (pre ++ Node.elem "h3" hwkids ::
      (mid ++ Node.elem "h3" prkids :: post))).getD "how_it_works" = mid := by
    rw [hsplit, getD_splitGo_plain post "pricing" _ "how_it_works" hpost,
      if_neg (by decide), getD_setdefault,
      getD_splitGo_plain mid "how_it_works" _ "how_it_works" hmid, if_pos rfl,
      getD_setdefault, getD_splitGo_plain pre "summary" _ "how_it_works" hpre,
      if_neg (by decide), getD_init]
    simp
  have hsum : (split_by_h3 (pre ++ Node.elem "h3" hwkids ::
      (mid ++ Node.elem "h3" prkids :: post))).getD "summary" = pre := by
    rw [hsplit, getD_splitGo_plain post "pricing" _ "summary" hpost,
      if_neg (by decide), getD_setdefault,
      getD_splitGo_plain mid "how_it_works" _ "summary" hmid,
      if_neg (by decide), getD_setdefault,
      getD_splitGo_plain pre "summary" _ "summary" hpre, if_pos rfl, getD_init]
    simp
  have hpri : (split_by_h3 (pre ++ Node.elem "h3" hwkids ::
      (mid ++ Node.elem "h3" prkids :: post))).getD "pricing" = post := by
    rw [hsplit, getD_splitGo_plain post "pricing" _ "pricing" hpost,
      if_pos rfl, getD_setdefault,
      getD_splitGo_plain mid "how_it_works" _ "pricing" hmid,
      if_neg (by decide), getD_setdefault,
      getD_splitGo_plain pre "summary" _ "pricing" hpre,
      if_neg (by decide), getD_init]
    simp
  have hpa : (split_by_h3 (pre ++ Node.elem "h3" hwkids ::
      (mid ++ Node.elem "h3" prkids :: post))).getD "practice_areas" = [] := by
    rw [hsplit, getD_splitGo_plain post "pricing" _ "practice_areas" hpost,
      if_neg (by decide), getD_setdefault,
      getD_splitGo_plain mid "how_it_works" _ "practice_areas" hmid,
      if_neg (by decide), getD_setdefault,
      getD_splitGo_plain pre "summary" _ "practice_areas" hpre,
      if_neg (by decide), getD_init]
  refine ⟨hhow, hsum, hpri, ?_⟩
  have hbodyall : ∀ n ∈ pre ++ Node.elem "h3" hwkids ::
      (mid ++ Node.elem "h3" prkids :: post),
      flatB n = true ∧ n.isTag = true ∧ n.name ≠ "h2" := by
    intro n hn
    simp only [List.mem_append, List.mem_cons] at hn
    rcases hn with h | h | h | h | h
    · exact ⟨(hsec n (by simp [h])).1, (hsec n (by simp [h])).2.1,
        (hsec n (by simp [h])).2.2.1⟩
    · subst h
      exact ⟨by simpa [flatB] using hhwk, rfl, by simp [Node.name]⟩
    · exact ⟨(hsec n (by simp [h])).1, (hsec n (by simp [h])).2.1,
        (hsec n (by simp [h])).2.2.1⟩
    · subst h
      exact ⟨by simpa [flatB] using hprk, rfl, by simp [Node.name]⟩
    · exact ⟨(hsec n (by simp [h])).1, (hsec n (by simp [h])).2.1,
        (hsec n (by simp [h])).2.2.1⟩
  rw [parse_single_section url nm h2kids _ hh2 hmatch hbodyall]
  rw [hhow, hsum, hpri, hpa, extract_section_text_nil]

/-- Witness for C3 at a concrete section. -/
theorem c3_field_isolation_witness :
    (split_by_h3 [pN "Good service", h3N "How It Works", pN "Step one",
        h3N "Pricing", pN "Fee info"]).getD "how_it_works" = [pN "Step one"]
    ∧ (split_by_h3 [pN "Good service", h3N "How It Works", pN "Step one",
        h3N "Pricing", pN "Fee info"]).getD "summary" = [pN "Good service"]
    ∧ (split_by_h3 [pN "Good service", h3N "How It Works", pN "Step one",
        h3N "Pricing", pN "Fee info"]).getD "pricing" = [pN "Fee info"]
    ∧ parse_services "u"
        [h2N "Acme Review for Lawyers", pN "Good service", h3N "How It Works",
         pN "Step one", h3N "Pricing", pN "Fee info"] =
      [{ service_name := "Acme", heading := "Acme Review for Lawyers",
         url := "u", summary := "Good service", how_it_works := "Step one",
         practice_areas := "", pricing := "Fee info" }] :=
  c3_field_isolation "u" "Acme" [.txt "Acme Review for Lawyers"]
    [.txt "How It Works"] [.txt "Pricing"]
    [pN "Good service"] [pN "Step one"] [pN "Fee info"]
    (by decide) (by decide) (by decide) (by decide) (by decide) (by decide)
    (by decide)

/-- C4: a record's seven fields are all of type `String` by the shape of
`ServiceReview` (none can be absent or null); substantively, a matched
section whose collected nodes contain no sub-heading leaves
`how_it_works`, `practice_areas` and `pricing` as the empty string, with
`summary` the section's paragraph/list-item text — itself the empty string
when no `p`/`li` node exists. -/
theorem c4_empty_section_defaults
    (url nm : String) (h2kids body : List Node)
    (hh2 : h2kids.all Node.isTxt = true)
    (hmatch : serviceMatch (clean_text (getText (Node.elem "h2" h2kids))) = some nm)
    (hbody : ∀ n ∈ body,
      flatB n = true ∧ n.isTag = true ∧ n.name ≠ "h2" ∧ n.name ≠ "h3") :
    parse_services url (Node.elem "h2" h2kids :: body) =
      [{ service_name := stripStr nm
         heading := clean_text (getText (Node.elem "h2" h2kids))
         url := url
         summary := extract_section_text body
         how_it_works := ""
         practice_areas := ""
         pricing := "" }]
    ∧ ((∀ n ∈ body, n.name ≠ "p" ∧ n.name ≠ "li") →
        extract_section_text body = "") := by
  have hplain : ∀ n ∈ body, n.name ≠ "h3" ∧ n.name ≠ "h2" := fun n hn =>
    ⟨(hbody n hn).2.2.2, (hbody n hn).2.2.1⟩
  have hsplit : ∀ k, (split_by_h3 body).getD k =
      if k = "summary" then body else [] := by
    intro k
    unfold split_by_h3
    rw [getD_splitGo_plain body "summary" _ k hplain, getD_init]
    split <;> rfl
  refine ⟨?_, extract_no_pli body⟩
  rw [parse_single_section url nm h2kids body hh2 hmatch
      (fun n hn => ⟨(hbody n hn).1, (hbody n hn).2.1, (hbody n hn).2.2.1⟩)]
  rw [hsplit "summary", hsplit "how_it_works", hsplit "practice_areas",
    hsplit "pricing"]
  simp [extract_section_text_nil]

/-- Witness for C4 at a concrete one-paragraph section. -/
theorem c4_empty_section_defaults_witness :
    parse_services "u" [h2N "Acme Review for Lawyers", pN "Hello"] =
      [{ service_name := "Acme", heading := "Acme Review for Lawyers",
         url := "u", summary := "Hello", how_it_works := "",
         practice_areas := "", pricing := "" }]
    ∧ ((∀ n ∈ [pN "Hello"], n.name ≠ "p" ∧ n.name ≠ "li") →
        extract_section_text [pN "Hello"] = "") :=
  c4_empty_section_defaults "u" "Acme" [.txt "Acme Review for Lawyers"]
    [pN "Hello"] (by decide) (by decide) (by decide)

/-- C7, counterexample to the claim as stated: two sub-headings with the
same unmatched title do NOT get distinct buckets.  Scanning
`[h3 "Misc", p "a", h3 "Misc", p "b"]` (the node `p "a"` follows the first
"Misc" sub-heading, `p "b"` the second) produces a dictionary with exactly
one unrecognized-section entry, `"section:misc"`, holding both nodes: the
second sub-heading's bucket is the first one's, not distinct from it. -/
theorem c7_counterexample :
    split_by_h3 [h3N "Misc", pN "a", h3N "Misc", pN "b"] =
      [("summary", []), ("section:misc", [pN "a", pN "b"])] := rfl

theorem section_key_ne (t : String) :
    "section:" ++ t ≠ "summary" ∧ "section:" ++ t ≠ "how_it_works" ∧
      "section:" ++ t ≠ "practice_areas" ∧ "section:" ++ t ≠ "pricing" := by
  have hidx : ("section:" ++ t).data[1]? = some 'e' := by
    rw [String.data_append]
    rfl
  refine ⟨fun h => ?_, fun h => ?_, fun h => ?_, fun h => ?_⟩ <;>
  · rw [h] at hidx
    exact absurd hidx (by decide)

theorem section_key_inj (t t' : String)
    (h : "section:" ++ t' = "section:" ++ t) : t' = t := by
  have hd := congrArg String.data h
  rw [String.data_append, String.data_append] at hd
  exact String.ext (List.append_cancel_left hd)

/-- C7, amended: a sub-heading whose lower-cased cleaned text matches none
of the three recognized patterns directs subsequent nodes into the bucket
`"section:" ++ title`, which differs from the four named buckets and from
the bucket of every other sub-heading *whose lower-cased cleaned title
differs* (sub-headings with equal titles share one bucket — see the
counterexample); the scan does not fail, and the bucket's content reaches
no field of the final record. -/
theorem c7_unrecognized_bucket
    (url nm title : String) (h2kids misckids pre tail : List Node)
    (hh2 : h2kids.all Node.isTxt = true)
    (hmatch : serviceMatch (clean_text (getText (Node.elem "h2" h2kids))) = some nm)
    (hmk : misckids.all Node.isTxt = true)
    (htitle : strToLower (clean_text (getText (Node.elem "h3" misckids))) = title)
    (hp1 : (hasSubstr title "how" && hasSubstr title "work") = false)
    (hp2 : (hasSubstr title "practice" && hasSubstr title "area") = false)
    (hp3 : (hasSubstr title "pricing" || hasSubstr title "price") = false)
    (hsec : ∀ n ∈ pre ++ tail,
      flatB n = true ∧ n.isTag = true ∧ n.name ≠ "h2" ∧ n.name ≠ "h3") :
    classifyH3 title = "section:" ++ title
    ∧ ("section:" ++ title ≠ "summary" ∧ "section:" ++ title ≠ "how_it_works" ∧
        "section:" ++ title ≠ "practice_areas" ∧ "section:" ++ title ≠ "pricing")
    ∧ (∀ t', t' ≠ title → "section:" ++ t' ≠ "section:" ++ title)
    ∧ (split_by_h3 (pre ++ Node.elem "h3" misckids :: tail)).getD
        ("section:" ++ title) = tail
    ∧ parse_services url
        (Node.elem "h2" h2kids :: (pre ++ Node.elem "h3" misckids :: tail)) =
      [{ service_name := stripStr nm
         heading := clean_text (getText (Node.elem "h2" h2kids))
         url := url
         summary := extract_section_text pre
         how_it_works := ""
         practice_areas := ""
         pricing := "" }] := by
  have hclass : classifyH3 title = "section:" ++ title := by
    simp [classifyH3, hp1, hp2, hp3]
  have hkeys := section_key_ne title
  have hpre : ∀ n ∈ pre, n.name ≠ "h3" ∧ n.name ≠ "h2" := fun n hn =>
    ⟨(hsec n (by simp [hn])).2.2.2, (hsec n (by simp [hn])).2.2.1⟩
  have htail : ∀ n ∈ tail, n.name ≠ "h3" ∧ n.name ≠ "h2" := fun n hn =>
    ⟨(hsec n (by simp [hn])).2.2.2, (hsec n (by simp [hn])).2.2.1⟩
  have hsplit : split_by_h3 (pre ++ Node.elem "h3" misckids :: tail) =
      splitGo tail ("section:" ++ title)
        ((splitGo pre "summary" [("summary", [])]).setdefault
          ("section:" ++ title)) := by
    unfold split_by_h3
    rw [splitGo_append pre _ _ _ hpre]
    rw [splitGo_h3 _ _ _ _ (by rfl), htitle, hclass]
  have hget : ∀ k, (split_by_h3 (pre ++ Node.elem "h3" misckids :: tail)).getD k =
      if k = "section:" ++ title then tail
      else if k = "summary" then pre else [] := by
    intro k
    rw [hsplit, getD_splitGo_plain tail ("section:" ++ title) _ k htail]
    by_cases hk : k = "section:" ++ title
    · rw [if_pos hk, if_pos hk, getD_setdefault,
        getD_splitGo_plain pre "summary" _ k hpre,
        if_neg (by rw [hk]; exact hkeys.1), getD_init]
      rfl
    · rw [if_neg hk, if_neg hk, getD_setdefault,
        getD_splitGo_plain pre "summary" _ k hpre, getD_init]
      split <;> rfl
  have hbodyall : ∀ n ∈ pre ++ Node.elem "h3" misckids :: tail,
      flatB n = true ∧ n.isTag = true ∧ n.name ≠ "h2" := by
    intro n hn
    simp only [List.mem_append, List.mem_cons] at hn
    rcases hn with h | h | h
    · exact ⟨(hsec n (by simp [h])).1, (hsec n (by simp [h])).2.1,
        (hsec n (by simp [h])).2.2.1⟩
    · subst h
      exact ⟨by simpa [flatB] using hmk, rfl, by simp [Node.name]⟩
    · exact ⟨(hsec n (by simp [h])).1, (hsec n (by simp [h])).2.1,
        (hsec n (by simp [h])).2.2.1⟩
  refine ⟨hclass, hkeys, fun t' ht' heq => ht' (section_key_inj title t' heq),
    by rw [hget, if_pos rfl], ?_⟩
  rw [parse_single_section url nm h2kids _ hh2 hmatch hbodyall]
  rw [hget "summary", hget "how_it_works", hget "practice_areas", hget "pricing"]
  rw [if_neg (fun h => hkeys.1 h.symm), if_pos rfl,
    if_neg (fun h => hkeys.2.1 h.symm), if_neg (by decide),
    if_neg (fun h => hkeys.2.2.1 h.symm), if_neg (by decide),
    if_neg (fun h => hkeys.2.2.2 h.symm), if_neg (by decide)]
  rw [extract_section_text_nil]

/-- Witness for the amended C7 at a concrete section with an unmatched
"Misc" sub-heading. -/
theorem c7_unrecognized_bucket_witness :
    classifyH3 "misc" = "section:" ++ "misc"
    ∧ ("section:" ++ "misc" ≠ "summary" ∧ "section:" ++ "misc" ≠ "how_it_works" ∧
        "section:" ++ "misc" ≠ "practice_areas" ∧ "section:" ++ "misc" ≠ "pricing")
    ∧ (∀ t', t' ≠ "misc" → "section:" ++ t' ≠ "section:" ++ "misc")
    ∧ (split_by_h3 [pN "Intro", h3N "Misc", pN "Hidden"]).getD
        ("section:" ++ "misc") = [pN "Hidden"]
    ∧ parse_services "u"
        [h2N "Acme Review for Lawyers", pN "Intro", h3N "Misc", pN "Hidden"] =
      [{ service_name := "Acme", heading := "Acme Review for Lawyers",
         url := "u", summary := "Intro", how_it_works := "",
         practice_areas := "", pricing := "" }] :=
  c7_unrecognized_bucket "u" "Acme" "misc" [.txt "Acme Review for Lawyers"]
    [.txt "Misc"] [pN "Intro"] [pN "Hidden"]
    (by decide) (by decide) (by decide) (by decide) (by decide) (by decide)
    (by decide) (by decide)

/-- C8: `parse_services` is modelled as a mathematical function of its two
inputs alone (the Python function reads no global mutable state and uses no
randomness), so two calls with equal `source_url` and equal parsed document
return identical record sequences. -/
theorem c8_deterministic (url1 url2 : String) (doc1 doc2 : List Node)
    (hu : url1 = url2) (hd : doc1 = doc2) :
    parse_services url1 doc1 = parse_services url2 doc2 := by
  rw [hu, hd]

/-- Witness for C8. -/
theorem c8_deterministic_witness :
    parse_services "u" [h2N "A Review for Lawyers"] =
      parse_services "u" [h2N "A Review for Lawyers"] :=
  c8_deterministic "u" "u" [h2N "A Review for Lawyers"]
    [h2N "A Review for Lawyers"] rfl rfl

/-- C10: `_extract_section_text` inspects only the tag of each direct bucket
member — dropping every member whose own tag is not `p`/`li` leaves the
result unchanged — so a bucket whose only member is a list container (any
non-`p`/`li` tag, e.g. `ul` or `ol`) yields the empty string, its nested
`li` children's text never being extracted. -/
theorem c10_direct_tag_only :
    (∀ nodes : List Node,
      extract_section_text
          (nodes.filter (fun n => (n.name == "p") || (n.name == "li"))) =
        extract_section_text nodes)
    ∧ (∀ (tag : String) (items : List Node), tag ≠ "p" → tag ≠ "li" →
        extract_section_text [Node.elem tag items] = "")
    ∧ extract_section_text [ulN [liN "Item one", liN "Item two"]] = "" := by
  refine ⟨?_, ?_, by decide⟩
  · intro nodes
    unfold extract_section_text
    have hfm : (nodes.filter
        (fun n => (n.name == "p") || (n.name == "li"))).filterMap lineOf =
        nodes.filterMap lineOf := by
      induction nodes with
      | nil => rfl
      | cons n rest ih =>
        by_cases hn : (n.name = "p" ∨ n.name = "li")
        · rw [List.filter_cons_of_pos (by simpa using hn)]
          rw [List.filterMap_cons, List.filterMap_cons, ih]
        · rw [List.filter_cons_of_neg (by simpa using hn)]
          rw [List.filterMap_cons]
          have : lineOf n = none := by simp [lineOf, hn]
          rw [this, ih]
    rw [hfm]
  · intro tag items h1 h2
    have : lineOf (Node.elem tag items) = none := by
      simp [lineOf, Node.name, h1, h2]
    simp [extract_section_text, this]
    rfl

/-- Witness for C10 at a `ul` wrapping a text-bearing `li`. -/
theorem c10_direct_tag_only_witness :
    ("ul" ≠ "p" ∧ "ul" ≠ "li")
    ∧ extract_section_text [Node.elem "ul" [liN "Item"]] = "" :=
  ⟨⟨by decide, by decide⟩,
    c10_direct_tag_only.2.1 "ul" [liN "Item"] (by decide) (by decide)⟩

/-! ### The Retriever: `fetch_html` -/


theorem fetchLoop_all_fail {E : Type} (url : String) (retries : ℕ) (backoff : ℚ)
    (transport : ℕ → Except E String) :
    ∀ (r a : ℕ) (lastExc : Option E) (sleeps : List ℚ) (calls : ℕ) (elast : E),
      1 ≤ r → a + r = retries + 1 →
      (∀ k, a ≤ k → k < a + r → ∃ e, transport k = Except.error e) →
      transport retries = Except.error elast →
      fetchLoop url retries backoff transport r a lastExc sleeps calls =
        ⟨Except.error ⟨fetchMsg url retries, some elast⟩,
          sleeps ++ (List.range' a (retries - a)).map (fun k : ℕ => backoff * (k : ℚ)),
          calls + r⟩ := by
  intro r
  induction r with
  | zero => intro a lastExc sleeps calls elast h1; omega
  | succ r ih =>
    intro a lastExc sleeps calls elast h1 hsum hfail hlast
    by_cases hr : r = 0
    · subst hr
      have ha : a = retries := by omega
      subst ha
      simp only [fetchLoop, hlast]
      rw [if_neg (by omega)]
      simp [Nat.sub_self]
    · have halt : a < retries := by omega
      obtain ⟨e, he⟩ := hfail a (Nat.le_refl a) (by omega)
      simp only [fetchLoop, he]
      rw [if_pos halt]
      rw [ih (a + 1) (some e) (sleeps ++ [backoff * (a : ℚ)]) (calls + 1) elast
        (by omega) (by omega)
        (fun k hk1 hk2 => hfail k (by omega) (by omega)) hlast]
      have hr2 : retries - a = (retries - (a + 1)) + 1 := by omega
      rw [hr2, List.range'_succ]
      simp [FetchTrace.mk.injEq, List.append_assoc]
      omega

theorem fetchLoop_success {E : Type} (url : String) (retries : ℕ) (backoff : ℚ)
    (transport : ℕ → Except E String) :
    ∀ (r a : ℕ) (lastExc : Option E) (sleeps : List ℚ) (calls : ℕ)
      (k : ℕ) (body : String),
      a ≤ k → k < a + r → a + r = retries + 1 →
      transport k = Except.ok body →
      (∀ j, a ≤ j → j < k → ∃ e, transport j = Except.error e) →
      fetchLoop url retries backoff transport r a lastExc sleeps calls =
        ⟨Except.ok body,
          sleeps ++ (List.range' a (k - a)).map (fun j : ℕ => backoff * (j : ℚ)),
          calls + (k - a) + 1⟩ := by
  intro r
  induction r with
  | zero => intro a lastExc sleeps calls k body hk1 hk2; omega
  | succ r ih =>
    intro a lastExc sleeps calls k body hk1 hk2 hsum hok hfail
    by_cases hka : k = a
    · subst hka
      simp only [fetchLoop, hok]
      simp [FetchTrace.mk.injEq]
    · have hlt : a < k := by omega
      obtain ⟨e, he⟩ := hfail a (Nat.le_refl a) hlt
      have halt : a < retries := by omega
      simp only [fetchLoop, he]
      rw [if_pos halt]
      rw [ih (a + 1) (some e) (sleeps ++ [backoff * (a : ℚ)]) (calls + 1) k body
        (by omega) (by omega) (by omega) hok
        (fun j h1 h2 => hfail j (by omega) h2)]
      have hr2 : k - a = (k - (a + 1)) + 1 := by omega
      rw [hr2, List.range'_succ]
      simp [FetchTrace.mk.injEq, List.append_assoc]
      omega

theorem chain_lt_backoff_map (backoff : ℚ) (hb : 0 < backoff) :
    ∀ (n s : ℕ), List.Chain' (· < ·)
      ((List.range' s n).map (fun k : ℕ => backoff * (k : ℚ))) := by
  intro n
  induction n with
  | zero => intro s; simp
  | succ n ih =>
    intro s
    rw [List.range'_succ, List.map_cons, List.chain'_cons']
    refine ⟨?_, ih (s + 1)⟩
    intro y hy
    cases n with
    | zero => simp at hy
    | succ m =>
      rw [List.range'_succ, List.map_cons] at hy
      simp only [List.head?_cons, Option.mem_def, Option.some_inj] at hy
      subst hy
      have hcast : (s : ℚ) < ((s + 1 : ℕ) : ℚ) := by push_cast; linarith
      exact mul_lt_mul_of_pos_left hcast hb

/-- C5: when every one of the `retries` attempts fails, `fetch_html` makes
exactly `retries` transport calls (never one more) and ends with a
`FetchError` whose message (the f-string of line 47) contains the URL and
the attempt count and whose cause is the last attempt's failure; when an
attempt succeeds (all earlier ones having failed), the body of that
attempt is returned, no `FetchError` arises, and no further attempt is
made. -/
theorem c5_retry_exhaustion {E : Type} (url : String) (retries : ℕ)
    (backoff : ℚ) (transport : ℕ → Except E String) :
    (∀ elast : E, 1 ≤ retries →
      (∀ k, 1 ≤ k → k ≤ retries → ∃ e, transport k = Except.error e) →
      transport retries = Except.error elast →
      (fetch_html url retries backoff transport).result =
          Except.error ⟨fetchMsg url retries, some elast⟩
        ∧ (fetch_html url retries backoff transport).calls = retries
        ∧ url.data <:+: (fetchMsg url retries).data
        ∧ (toString retries).data <:+: (fetchMsg url retries).data)
    ∧ (∀ (k : ℕ) (body : String), 1 ≤ k → k ≤ retries →
        transport k = Except.ok body →
        (∀ j, 1 ≤ j → j < k → ∃ e, transport j = Except.error e) →
        (fetch_html url retries backoff transport).result = Except.ok body
          ∧ (fetch_html url retries backoff transport).calls = k) := by
  constructor
  · intro elast hr hfail hlast
    have h := fetchLoop_all_fail url retries backoff transport retries 1 none [] 0
      elast hr (by omega) (fun k hk1 hk2 => hfail k hk1 (by omega)) hlast
    unfold fetch_html
    rw [h]
    refine ⟨rfl, by simp, ?_, ?_⟩
    · refine ⟨("Failed to fetch " : String).data,
        (" after " ++ toString retries ++ " attempts" : String).data, ?_⟩
      simp [fetchMsg, String.data_append, List.append_assoc]
    · refine ⟨("Failed to fetch " ++ url ++ " after " : String).data,
        (" attempts" : String).data, ?_⟩
      simp [fetchMsg, String.data_append, List.append_assoc]
  · intro k body hk1 hk2 hok hfail
    have h := fetchLoop_success url retries backoff transport retries 1 none [] 0
      k body hk1 (by omega) (by omega) hok
      (fun j hj1 hj2 => hfail j hj1 hj2)
    unfold fetch_html
    rw [h]
    exact ⟨rfl, by simp; omega⟩

/-- Witness for C5: three failing attempts of three, and a success at the
second attempt of three. -/
theorem c5_retry_exhaustion_witness :
    ((fetch_html "u" 3 1 failTransport).result =
        Except.error ⟨fetchMsg "u" 3, some "boom"⟩
      ∧ (fetch_html "u" 3 1 failTransport).calls = 3
      ∧ "u".data <:+: (fetchMsg "u" 3).data
      ∧ (toString 3).data <:+: (fetchMsg "u" 3).data)
    ∧ ((fetch_html "u" 3 1 mixedTransport).result = Except.ok "page"
      ∧ (fetch_html "u" 3 1 mixedTransport).calls = 2) :=
  ⟨(c5_retry_exhaustion "u" 3 1 failTransport).1 "boom" (by omega)
      (fun k h1 h2 => ⟨"boom", rfl⟩) rfl,
    (c5_retry_exhaustion "u" 3 1 mixedTransport).2 2 "page" (by omega) (by omega)
      rfl
      (fun j h1 h2 => ⟨"boom", by
        have hj : j = 1 := by omega
        subst hj
        rfl⟩)⟩

/-- C6: with every attempt failing, the recorded waits are exactly
`backoff * 1, backoff * 2, …, backoff * (retries - 1)` — after failed
attempt `n` (for `n < retries`) the wait is `backoff * n`, there is no
wait after the final attempt, and for positive `backoff` the waits
strictly increase. -/
theorem c6_linear_backoff {E : Type} (url : String) (retries : ℕ)
    (backoff : ℚ) (transport : ℕ → Except E String)
    (hr : 1 ≤ retries)
    (hfail : ∀ k, 1 ≤ k → k ≤ retries → ∃ e, transport k = Except.error e) :
    (fetch_html url retries backoff transport).sleeps =
        (List.range' 1 (retries - 1)).map (fun n : ℕ => backoff * (n : ℚ))
    ∧ (0 < backoff →
        List.Chain' (· < ·) ((fetch_html url retries backoff transport).sleeps)) := by
  obtain ⟨elast, hlast⟩ := hfail retries hr (Nat.le_refl retries)
  have h := fetchLoop_all_fail url retries backoff transport retries 1 none [] 0
    elast hr (by omega) (fun k hk1 hk2 => hfail k hk1 (by omega)) hlast
  unfold fetch_html
  rw [h]
  constructor
  · simp
  · intro hb
    simp only
    rw [List.nil_append]
    exact chain_lt_backoff_map backoff hb (retries - 1) 1

/-- Witness for C6: three failing attempts with unit backoff sleep exactly
1 then 2 seconds, an increasing chain. -/
theorem c6_linear_backoff_witness :
    (fetch_html "u" 3 1 failTransport).sleeps =
        (List.range' 1 2).map (fun n : ℕ => (1 : ℚ) * (n : ℚ))
    ∧ (0 < (1 : ℚ) →
        List.Chain' (· < ·) ((fetch_html "u" 3 1 failTransport).sleeps)) :=
  c6_linear_backoff "u" 3 1 failTransport (by omega)
    (fun k h1 h2 => ⟨"boom", rfl⟩)

/-! ### C9: `_clean_text` against the spec's description of normalization -/


theorem trimBack_cons (a : Char) (Y : List Char) :
    trimBack (a :: Y) =
      if (Y.reverse.dropWhile Char.isWhitespace).isEmpty = true then
        (if a.isWhitespace then [] else [a])
      else a :: trimBack Y := by
  unfold trimBack
  rw [List.reverse_cons, List.dropWhile_append]
  split
  · by_cases ha : a.isWhitespace
    · simp [List.dropWhile_cons, ha]
    · simp [List.dropWhile_cons, ha]
  · simp

theorem trimBack_cons_nonws (a : Char) (Y : List Char)
    (ha : a.isWhitespace = false) : trimBack (a :: Y) = a :: trimBack Y := by
  rw [trimBack_cons]
  split
  · rename_i h
    rw [if_neg (by simp [ha])]
    have hY : trimBack Y = [] := by
      unfold trimBack
      rw [List.isEmpty_iff.mp h]
      rfl
    rw [hY]
  · rfl

theorem trimBack_cons_keep (a : Char) (Y : List Char)
    (h : (Y.reverse.dropWhile Char.isWhitespace).isEmpty = false) :
    trimBack (a :: Y) = a :: trimBack Y := by
  rw [trimBack_cons, if_neg (by simp [h])]

theorem dropWhile_rev_cons_ne (z : Char) (X : List Char)
    (hz : z.isWhitespace = false) :
    (((z :: X).reverse).dropWhile Char.isWhitespace).isEmpty = false := by
  rw [List.reverse_cons, List.dropWhile_append]
  split
  · simp [List.dropWhile_cons, hz]
  · simp

theorem collapseGo_true (cs : List Char) :
    collapseGo true cs = collapseGo false (cs.dropWhile Char.isWhitespace) := by
  induction cs with
  | nil => rfl
  | cons c cs' ih =>
    cases hc : c.isWhitespace
    · simp [collapseGo, hc, List.dropWhile_cons]
    · simp [collapseGo, hc, List.dropWhile_cons, ih]

theorem dropWhile_collapseGo (cs : List Char) :
    ∀ b, (collapseGo b cs).dropWhile Char.isWhitespace =
      collapseGo false (cs.dropWhile Char.isWhitespace) := by
  induction cs with
  | nil => intro b; rfl
  | cons c cs' ih =>
    intro b
    cases hc : c.isWhitespace
    · cases b <;> simp [collapseGo, hc, List.dropWhile_cons]
    · cases b <;> simp [collapseGo, hc, List.dropWhile_cons, ih true]

theorem specWords_dropWhile (cs : List Char) :
    specWords (cs.dropWhile Char.isWhitespace) = specWords cs := by
  induction cs with
  | nil => rfl
  | cons c cs' ih =>
    cases hc : c.isWhitespace
    · rw [List.dropWhile_cons, if_neg (by simp [hc])]
    · rw [List.dropWhile_cons, if_pos (by simp [hc]), ih]
      rw [show specWords (c :: cs') = specWords cs' from by simp [specWords, hc]]

theorem specWords_ne_nil (z : Char) (zs : List Char)
    (hz : z.isWhitespace = false) : specWords (z :: zs) ≠ [] := by
  simp [specWords, hz]

theorem joinWords_cons_cons (a : Char) (w : List Char)
    (ws' : List (List Char)) :
    joinWords ((a :: w) :: ws') = a :: joinWords (w :: ws') := by
  cases ws' <;> simp [joinWords]

theorem joinWords_cons_ne (w : List Char) (ws' : List (List Char))
    (h : ws' ≠ []) : joinWords (w :: ws') = w ++ ' ' :: joinWords ws' := by
  cases ws'
  · exact absurd rfl h
  · rfl

theorem trimBack_collapse_words :
    ∀ (N : ℕ) (cs : List Char), cs.length ≤ N →
      (∀ c, cs.head? = some c → c.isWhitespace = false) →
      trimBack (collapseGo false cs) = joinWords (specWords cs) := by
  intro N
  induction N with
  | zero =>
    intro cs hlen _
    match cs with
    | [] =>
      rw [show specWords ([] : List Char) = [] from by simp [specWords]]
      rfl
    | c :: cs' => simp at hlen
  | succ N ih =>
    intro cs hlen hhead
    match cs with
    | [] =>
      rw [show specWords ([] : List Char) = [] from by simp [specWords]]
      rfl
    | c :: cs' =>
      have hc : c.isWhitespace = false := hhead c rfl
      rw [show collapseGo false (c :: cs') = c :: collapseGo false cs' from by
        simp [collapseGo, hc]]
      rw [trimBack_cons_nonws c _ hc]
      match cs' with
      | [] =>
        rw [show specWords [c] = [[c]] from by simp [specWords, hc]]
        rfl
      | d :: ds =>
        have hlen2 : (d :: ds).length ≤ N := by
          simp only [List.length_cons] at hlen ⊢
          omega
        cases hd : d.isWhitespace
        · -- the word continues at d
          rw [ih (d :: ds) hlen2 (fun x hx => by
            simp only [List.head?_cons, Option.some_inj] at hx
            rw [← hx]
            exact hd)]
          rw [show specWords (c :: d :: ds) =
              (c :: (d :: ds).takeWhile (fun x => !x.isWhitespace)) ::
                specWords ((d :: ds).dropWhile (fun x => !x.isWhitespace)) from by
            simp [specWords, hc]]
          rw [show specWords (d :: ds) =
              (d :: ds.takeWhile (fun x => !x.isWhitespace)) ::
                specWords (ds.dropWhile (fun x => !x.isWhitespace)) from by
            simp [specWords, hd]]
          rw [List.takeWhile_cons, if_pos (by simp [hd])]
          rw [List.dropWhile_cons, if_pos (by simp [hd])]
          rw [joinWords_cons_cons, joinWords_cons_cons, joinWords_cons_cons]
        · -- whitespace after c: the word [c] ends here
          rw [show collapseGo false (d :: ds) = ' ' :: collapseGo true ds from by
            simp [collapseGo, hd]]
          rw [collapseGo_true ds]
          have hspec : specWords (c :: d :: ds) =
              [c] :: specWords (ds.dropWhile Char.isWhitespace) := by
            rw [show specWords (c :: d :: ds) =
                (c :: (d :: ds).takeWhile (fun x => !x.isWhitespace)) ::
                  specWords ((d :: ds).dropWhile (fun x => !x.isWhitespace)) from by
              simp [specWords, hc]]
            rw [List.takeWhile_cons, if_neg (by simp [hd])]
            rw [List.dropWhile_cons, if_neg (by simp [hd])]
            rw [show specWords (d :: ds) = specWords ds from by
              simp [specWords, hd]]
            rw [← specWords_dropWhile ds]
          rw [hspec]
          cases hZ : ds.dropWhile Char.isWhitespace with
          | nil =>
            rw [show specWords ([] : List Char) = [] from by simp [specWords]]
            rfl
          | cons z zs =>
            have hz : z.isWhitespace = false := by
              have h := List.head?_dropWhile_not Char.isWhitespace ds
              rw [hZ] at h
              simpa using h
            have hkeep : (((collapseGo false (z :: zs)).reverse).dropWhile
                Char.isWhitespace).isEmpty = false := by
              rw [show collapseGo false (z :: zs) = z :: collapseGo false zs from by
                simp [collapseGo, hz]]
              exact dropWhile_rev_cons_ne z _ hz
            rw [trimBack_cons_keep ' ' _ hkeep]
            have hlen3 : (z :: zs).length ≤ N := by
              have hle := length_dropWhile_le' Char.isWhitespace ds
              rw [hZ] at hle
              simp only [List.length_cons] at hlen hle ⊢
              omega
            rw [ih (z :: zs) hlen3 (fun x hx => by
              simp only [List.head?_cons, Option.some_inj] at hx
              rw [← hx]
              exact hz)]
            rw [joinWords_cons_ne [c] _ (specWords_ne_nil z zs hz)]
            rfl

/-- `_clean_text` computes exactly the spec's normalization: the
whitespace-separated words of the input joined by single spaces. -/
theorem clean_text_eq_specNormalize (s : String) :
    clean_text s = specNormalize s := by
  unfold clean_text specNormalize collapseWS
  congr 1
  have h1 : trimWS (collapseGo false s.data) =
      trimBack ((collapseGo false s.data).dropWhile Char.isWhitespace) := rfl
  rw [h1, dropWhile_collapseGo s.data false]
  have hhead : ∀ c, (s.data.dropWhile Char.isWhitespace).head? = some c →
      c.isWhitespace = false := by
    intro c hc
    have h := List.head?_dropWhile_not Char.isWhitespace s.data
    rw [hc] at h
    simpa using h
  rw [trimBack_collapse_words (s.data.dropWhile Char.isWhitespace).length
    _ (Nat.le_refl _) hhead]
  rw [specWords_dropWhile]

/-- C9: text normalization collapses every internal whitespace run
(newlines included) to one space and trims both ends: `_clean_text` equals
the spec-side words-joined-by-single-spaces normalization on every input, and
on the raw text "  foo\n\n bar  " it yields "foo bar". -/
theorem c9_whitespace_normalization :
    (∀ s : String, clean_text s = specNormalize s)
    ∧ clean_text "  foo\n\n bar  " = "foo bar" :=
  ⟨clean_text_eq_specNormalize, by decide⟩

end Scraper
